import Mathlib

/-!
Verification of the Lexiclaire document change & annotation engine
(`ai-service/main.py`) against its specification.

Python strings are modelled as Lean `String` (a packed `List Char`); the
Python primitives the code uses (slicing `s[:n]`, `strip`, `lower`, `find`,
`split("\n\n")`, `"sep".join`) are embedded as the character-list operations
below.  The PDF/DOCX byte decoders are external black boxes, so their outputs
(page texts, paragraph texts, decoded bytes) are inputs of the model, and the
LLM is likewise external: its parsed output is an input (`LLMOut`).
`difflib.SequenceMatcher` (used with `autojunk=False` and no junk predicate)
is embedded faithfully: the `j2len` dynamic program of `find_longest_match`
becomes `runLen`, its two best-match extension loops become `extendLeft` /
`extendRight` (the two junk-extension loops are identity when the junk set is
empty and are omitted), the recursive queue of `get_matching_blocks` becomes
`mbRec` (in-order recursion replaces queue-plus-sort, which returns the same
sorted list), and `get_opcodes` is translated directly.
-/

namespace Lexiclaire

/-- Python `s[i:j]` on a character list (Python slices clamp out-of-range). -/
def listSlice (l : List String) (i j : Nat) : List String :=
  (l.drop i).take (j - i)

/-- Python `s[:n]` prefix truncation by code points. -/
def strTake (s : String) (n : Nat) : String :=
  String.mk (s.toList.take n)

/-- Python `s[i:j]` on a string. -/
def substr (s : String) (i j : Nat) : String :=
  String.mk ((s.toList.drop i).take (j - i))

/-- Python `s.strip()`: drop leading and trailing whitespace characters. -/
def pyStrip (s : String) : String :=
  String.mk (((s.toList.dropWhile Char.isWhitespace).reverse.dropWhile Char.isWhitespace).reverse)

/-- Python `s.lower()`, modelled character-wise. -/
def lowerStr (s : String) : String :=
  String.mk (s.toList.map Char.toLower)

/-- Does `pat` occur in `s` starting at index `i`?  (`s[i:i+len(pat)] == pat`). -/
def occursAt (s pat : List Char) (i : Nat) : Bool :=
  decide ((s.drop i).take pat.length = pat)

/-- Python `s.find(pat)`: index of the leftmost occurrence, `none` if absent
(Python returns `-1`). -/
def strFind (s pat : String) : Option Nat :=
  (List.range (s.length + 1)).find? (occursAt s.toList pat.toList)

/-- Python `s.split("\n\n")` scanning: leftmost, non-overlapping separators;
`acc` is the reversed current block. -/
def splitBlank : List Char → List Char → List (List Char)
  | '\n' :: '\n' :: rest, acc => acc.reverse :: splitBlank rest []
  | c :: rest, acc => splitBlank rest (c :: acc)
  | [], acc => [acc.reverse]

/-- Python `s.split("\n\n")`. -/
def pySplitBlank (s : String) : List String :=
  (splitBlank s.toList []).map String.mk

-- ---------- SCHEMA ----------

inductive Severity
  | low
  | medium
  | high
deriving DecidableEq, Repr

inductive ClauseStatus
  | standard
  | unusual
  | restrictive
deriving DecidableEq, Repr

structure Obligation where
  text : String
  clause : String
deriving DecidableEq, Repr

structure Risk where
  text : String
  clause : String
  severity : Severity
deriving DecidableEq, Repr

structure Clause where
  name : String
  status : ClauseStatus
  description : String
deriving DecidableEq, Repr

structure Highlight where
  kind : String
  clause : Option String
  text : String
  rangeStart : Nat
  rangeEnd : Nat
deriving DecidableEq, Repr

inductive FileType
  | pdf
  | docx
  | txt
deriving DecidableEq, Repr

structure AnalysisReport where
  summary : String
  obligations : List Obligation
  risks : List Risk
  clauses : List Clause
  riskLevel : Severity
  tags : List String
  size : String
  type : FileType
  pages : Nat
  analyzedText : String
  pageOffsets : List Nat
  highlights : List Highlight
deriving DecidableEq, Repr

inductive ChangeType
  | added
  | modified
  | removed
deriving DecidableEq, Repr

structure Change where
  type : ChangeType
  sectionLabel : String
  description : String
  impact : String
deriving DecidableEq, Repr

structure VersionInfo where
  title : String
  content : String
deriving DecidableEq, Repr

structure ComparisonReport where
  versionA : VersionInfo
  versionB : VersionInfo
  changes : List Change
deriving DecidableEq, Repr

/-- Parsed output of the external text-generation capability (`_LLMOut`). -/
structure LLMOut where
  summary : String
  obligations : List Obligation
  risks : List Risk
  clauses : List Clause
  tags : List String
deriving DecidableEq, Repr

-- ---------- HELPERS (extraction) ----------

/-- `read_docx`: the black-box decoder yields the paragraph texts; the code
joins them with `"\n"`. -/
def read_docx (paras : List String) : String :=
  String.intercalate "\n" paras

/-- The offsets loop of `read_pdf_and_offsets`: for each page, append the
running `total`, then add the page's text length to `total`. -/
def pdfOffsets : List String → Nat → List Nat
  | [], _ => []
  | t :: rest, total => total :: pdfOffsets rest (total + t.length)

/-- `read_pdf_and_offsets`: the black-box `PdfReader` yields one extracted
text per page (`p.extract_text() or ""`); the code records the running totals
as offsets and joins the page texts with `"\n"`. -/
def read_pdf_and_offsets (pages : List String) : String × List Nat × Nat :=
  (String.intercalate "\n" pages, pdfOffsets pages 0, pages.length)

/-- `classify_overall_risk`. -/
def classify_overall_risk (risks : List Risk) : Severity :=
  if risks.any (fun r => r.severity = Severity.high) then Severity.high
  else if risks.any (fun r => r.severity = Severity.medium) then Severity.medium
  else Severity.low

-- ---------- SNIPPET LOCATOR ----------

/-- The inner `add` closure of `build_highlights`: skip falsy (empty)
snippets, strip and truncate to 160 characters, search case-insensitively,
and append a `Highlight` on success. -/
def addHighlight (text : String) (hl : List Highlight) (kind : String)
    (snippet : String) (clause : Option String) : List Highlight :=
  if snippet = "" then hl
  else
    let q := strTake (pyStrip snippet) 160
    match strFind (lowerStr text) (lowerStr q) with
    | some i => hl ++ [⟨kind, clause, q, i, i + q.length⟩]
    | none => hl

/-- `build_highlights`: obligations, then risks, then clauses (clauses fall
back from `description` to `name` via Python's `or`). -/
def build_highlights (text : String) (obligations : List Obligation)
    (risks : List Risk) (clauses : List Clause) : List Highlight :=
  let hl := obligations.foldl
    (fun hl o => addHighlight text hl "obligation" o.text (some o.clause)) []
  let hl := risks.foldl
    (fun hl r => addHighlight text hl "risk" r.text (some r.clause)) hl
  let hl := clauses.foldl
    (fun hl c => addHighlight text hl "clause"
      (if c.description ≠ "" then c.description else c.name) none) hl
  hl

-- ---------- SEQUENCE ALIGNER (difflib.SequenceMatcher, no junk) ----------

/-- Are `a[i]` and `b[j]` both present and equal? -/
def elemEq (a b : List String) (i j : Nat) : Bool :=
  match a.get? i, b.get? j with
  | some x, some y => x = y
  | _, _ => false

/-- The `j2len` dynamic program of `find_longest_match`:
`runLen a b alo blo i j` is the length of the longest common run ending at
`(i, j)` that stays inside the window (`a`-indices ≥ `alo`, `b`-indices ≥
`blo`).  In difflib this is `newj2len[j] = j2len.get(j-1, 0) + 1`, where the
previous row only holds indices `≥ blo` of matching elements. -/
def runLen (a b : List String) (alo blo : Nat) : Nat → Nat → Nat
  | 0, j => if elemEq a b 0 j then 1 else 0
  | i + 1, 0 => if elemEq a b (i + 1) 0 then 1 else 0
  | i + 1, j + 1 =>
    if elemEq a b (i + 1) (j + 1) then
      1 + (if alo ≤ i ∧ blo ≤ j then runLen a b alo blo i j else 0)
    else 0

/-- One candidate step of the `find_longest_match` loops: replace the best
match when the run ending at `(i, j)` is strictly longer.  (difflib only
iterates the `j` with `b[j] == a[i]`; other `j` have run length 0 and never
beat `bestsize ≥ 0`, so iterating every `j` is equivalent.) -/
def flmUpdate (a b : List String) (alo blo i : Nat) (best : Nat × Nat × Nat)
    (j : Nat) : Nat × Nat × Nat :=
  let k := runLen a b alo blo i j
  if best.2.2 < k then (i + 1 - k, j + 1 - k, k) else best

/-- The inner (`j`) loop of `find_longest_match` for one row `i`. -/
def flmRow (a b : List String) (alo blo bhi : Nat) (best : Nat × Nat × Nat)
    (i : Nat) : Nat × Nat × Nat :=
  (List.range' blo (bhi - blo)).foldl (flmUpdate a b alo blo i) best

/-- The full double loop of `find_longest_match`, starting from
`besti, bestj, bestsize = alo, blo, 0`. -/
def flmBest (a b : List String) (alo ahi blo bhi : Nat) : Nat × Nat × Nat :=
  (List.range' alo (ahi - alo)).foldl (flmRow a b alo blo bhi) (alo, blo, 0)

/-- difflib's first extension loop: while `besti > alo and bestj > blo and
a[besti-1] == b[bestj-1]`, grow the best match leftwards. -/
def extendLeft (a b : List String) (alo blo : Nat) : Nat → Nat → Nat → Nat × Nat × Nat
  | 0, bj, k => (0, bj, k)
  | bi + 1, bj, k =>
    if alo ≤ bi ∧ blo < bj ∧ elemEq a b bi (bj - 1) then
      extendLeft a b alo blo bi (bj - 1) (k + 1)
    else (bi + 1, bj, k)

/-- difflib's second extension loop: while `besti+bestsize < ahi and
bestj+bestsize < bhi and a[besti+bestsize] == b[bestj+bestsize]`, grow the
best match rightwards.  `fuel` only bounds the iteration; every call supplies
`fuel = ahi`, which exceeds the number of possible steps. -/
def extendRight (a b : List String) (ahi bhi bi bj : Nat) : Nat → Nat → Nat
  | 0, k => k
  | fuel + 1, k =>
    if bi + k < ahi ∧ bj + k < bhi ∧ elemEq a b (bi + k) (bj + k) then
      extendRight a b ahi bhi bi bj fuel (k + 1)
    else k

/-- `SequenceMatcher.find_longest_match` on the window
`a[alo:ahi] × b[blo:bhi]`, with no junk elements (`autojunk=False`, no
`isjunk`): the dynamic program followed by the two equal-element extension
loops.  The remaining two loops of the source extend over junk elements and
are the identity here because the junk set is empty. -/
def find_longest_match (a b : List String) (alo ahi blo bhi : Nat) : Nat × Nat × Nat :=
  let best := flmBest a b alo ahi blo bhi
  let bestL := extendLeft a b alo blo best.1 best.2.1 best.2.2
  (bestL.1, bestL.2.1, extendRight a b ahi bhi bestL.1 bestL.2.1 ahi bestL.2.2)

/-- The recursive block collection of `get_matching_blocks`.  difflib pushes
the sub-windows on a queue and sorts the collected blocks at the end; because
every block found in the left sub-window precedes the pivot block, which
precedes every block of the right sub-window, the in-order recursion below
returns the same sorted list.  `fuel` only bounds the recursion depth; the
window shrinks on each call, so `fuel = ahi + bhi` always suffices. -/
def mbRec (a b : List String) : Nat → Nat → Nat → Nat → Nat → List (Nat × Nat × Nat)
  | 0, _, _, _, _ => []
  | fuel + 1, alo, ahi, blo, bhi =>
    match find_longest_match a b alo ahi blo bhi with
    | (i, j, k) =>
      if k = 0 then []
      else
        (if alo < i ∧ blo < j then mbRec a b fuel alo i blo j else [])
        ++ (i, j, k)
        :: (if i + k < ahi ∧ j + k < bhi then mbRec a b fuel (i + k) ahi (j + k) bhi else [])

/-- The adjacent-block merging loop at the end of `get_matching_blocks`:
`(i1, j1, k1)` is the pending block (initially `(0, 0, 0)`), merged with the
next block when they touch, emitted (if non-empty) otherwise. -/
def mergeAdjacent : Nat × Nat × Nat → List (Nat × Nat × Nat) → List (Nat × Nat × Nat)
  | (i1, j1, k1), [] => if k1 ≠ 0 then [(i1, j1, k1)] else []
  | (i1, j1, k1), (i2, j2, k2) :: rest =>
    if i1 + k1 = i2 ∧ j1 + k1 = j2 then mergeAdjacent (i1, j1, k1 + k2) rest
    else (if k1 ≠ 0 then [(i1, j1, k1)] else []) ++ mergeAdjacent (i2, j2, k2) rest

/-- `SequenceMatcher.get_matching_blocks`: collect blocks over the whole
index space, merge adjacent ones, and append the `(len(a), len(b), 0)`
sentinel. -/
def get_matching_blocks (a b : List String) : List (Nat × Nat × Nat) :=
  mergeAdjacent (0, 0, 0) (mbRec a b (a.length + b.length) 0 a.length 0 b.length)
    ++ [(a.length, b.length, 0)]

inductive Tag
  | equal
  | delete
  | insert
  | replace
deriving DecidableEq, Repr

/-- One opcode `(tag, i1, i2, j1, j2)` of `SequenceMatcher.get_opcodes`. -/
structure Opcode where
  tag : Tag
  i1 : Nat
  i2 : Nat
  j1 : Nat
  j2 : Nat
deriving DecidableEq, Repr

/-- The loop of `get_opcodes`: before each matching block emit the gap opcode
(`replace` / `delete` / `insert`), then the `equal` opcode when the block is
non-empty. -/
def opcodesLoop : Nat → Nat → List (Nat × Nat × Nat) → List Opcode
  | _, _, [] => []
  | i, j, (ai, bj, size) :: rest =>
    (if i < ai ∧ j < bj then [⟨Tag.replace, i, ai, j, bj⟩]
     else if i < ai then [⟨Tag.delete, i, ai, j, bj⟩]
     else if j < bj then [⟨Tag.insert, i, ai, j, bj⟩]
     else [])
    ++ (if size ≠ 0 then [⟨Tag.equal, ai, ai + size, bj, bj + size⟩] else [])
    ++ opcodesLoop (ai + size) (bj + size) rest

/-- `SequenceMatcher.get_opcodes`. -/
def get_opcodes (a b : List String) : List Opcode :=
  opcodesLoop 0 0 (get_matching_blocks a b)

-- ---------- SEGMENTER ----------

/-- `split_sections`: break on `"\n\n"`, strip each block, keep non-empty. -/
def split_sections (s : String) : List String :=
  ((pySplitBlank s).map pyStrip).filter (fun blk => blk ≠ "")

-- ---------- CHANGE SYNTHESIZER ----------

def removedImpact : String := "May remove obligations/rights present in earlier version."

def addedImpact : String := "Introduces new terms/obligations that weren’t in the original."

def modifiedImpact : String := "Terms altered; review closely to confirm risk/obligation changes."

/-- `secs[idx][:180] + ("..." if len(secs[idx]) > 180 else "")`. -/
def truncDesc (s : String) : String :=
  strTake s 180 ++ (if 180 < s.length then "..." else "")

/-- The `removed` record emitted for index `idx` of a `delete` opcode.
(`secs.getD idx ""`: the opcode ranges index into `a_secs`, so `idx` is
always in bounds where this is used.) -/
def mkRemoved (a_secs : List String) (idx : Nat) : Change :=
  ⟨ChangeType.removed, "Section " ++ toString (idx + 1),
    truncDesc (a_secs.getD idx ""), removedImpact⟩

/-- The `added` record emitted for index `idx` of an `insert` opcode. -/
def mkAdded (b_secs : List String) (idx : Nat) : Change :=
  ⟨ChangeType.added, "Section " ++ toString (idx + 1),
    truncDesc (b_secs.getD idx ""), addedImpact⟩

/-- The single `modified` record emitted for a `replace` opcode:
`" ".join(secs[i1:i2])[:200]` on each side. -/
def mkModified (a_secs b_secs : List String) (i1 i2 j1 j2 : Nat) : Change :=
  ⟨ChangeType.modified, "Sections " ++ toString (i1 + 1) ++ "-" ++ toString i2,
    "Changed from: “" ++ strTake (String.intercalate " " (listSlice a_secs i1 i2)) 200
      ++ "” → “" ++ strTake (String.intercalate " " (listSlice b_secs j1 j2)) 200 ++ "”.",
    modifiedImpact⟩

/-- The records one opcode contributes inside the loop of `diff_sections`. -/
def changesForOpcode (a_secs b_secs : List String) (op : Opcode) : List Change :=
  match op.tag with
  | Tag.equal => []
  | Tag.delete => (List.range' op.i1 (op.i2 - op.i1)).map (mkRemoved a_secs)
  | Tag.insert => (List.range' op.j1 (op.j2 - op.j1)).map (mkAdded b_secs)
  | Tag.replace => [mkModified a_secs b_secs op.i1 op.i2 op.j1 op.j2]

/-- The opcode loop of `diff_sections`: append each opcode's records to the
accumulated `changes` list, in opcode order. -/
def synthesizeChanges (a_secs b_secs : List String) (ops : List Opcode) : List Change :=
  ops.foldl (fun changes op => changes ++ changesForOpcode a_secs b_secs op) []

/-- `diff_sections`: segment, align, synthesize, and return `changes[:100]`. -/
def diff_sections (a b : String) : List Change :=
  let a_secs := split_sections a
  let b_secs := split_sections b
  (synthesizeChanges a_secs b_secs (get_opcodes a_secs b_secs)).take 100

-- ---------- ANALYZE ENDPOINT ----------

/-- Python's `list(dict.fromkeys(tags))`: deduplicate keeping the first
occurrence, preserving order; `seen` accumulates the keys already emitted. -/
def dedupFirstAux : List String → List String → List String
  | _, [] => []
  | seen, x :: rest =>
    if x ∈ seen then dedupFirstAux seen rest
    else x :: dedupFirstAux (x :: seen) rest

def dedupFirst (l : List String) : List String :=
  dedupFirstAux [] l

/-- Python `round(n / 1024)` for a natural `n`: round half to even.
(`n/1024` is exact in binary floating point for any file size.) -/
def pyRoundDiv1024 (n : Nat) : Nat :=
  let q := n / 1024
  let r := n % 1024
  if 512 < r then q + 1 else if r < 512 then q else if q % 2 = 0 then q else q + 1

/-- `size_kb = f"{round(len(raw) / 1024)} KB"`. -/
def sizeKB (rawLen : Nat) : String :=
  toString (pyRoundDiv1024 rawLen) ++ " KB"

/-- The decoded upload handed to `analyze` / `compare`: the byte-to-text
decoders are black boxes, so the model receives their outputs (the dispatch
on the lower-cased filename suffix selects the constructor; any other suffix
is `unsupported`). -/
inductive RawDoc
  | pdfPages (pages : List String)
  | docxParas (paras : List String)
  | txtBytes (s : String)
  | unsupported
deriving DecidableEq, Repr

/-- The extraction dispatch of `analyze` (lines 243-253): `page_offsets`
starts `[]` and `pages` starts `1`; only the PDF branch overwrites them. -/
def extractDoc : RawDoc → Option (String × List Nat × Nat × FileType)
  | RawDoc.pdfPages pages =>
    match read_pdf_and_offsets pages with
    | (text, offs, n) => some (text, offs, n, FileType.pdf)
  | RawDoc.docxParas paras => some (read_docx paras, [], 1, FileType.docx)
  | RawDoc.txtBytes s => some (s, [], 1, FileType.txt)
  | RawDoc.unsupported => none

/-- The `analyze` endpoint, modulo I/O and the LLM call: strip the extracted
text, reject empty text, truncate to `maxChars` (`MAX_INPUT_CHARS`, default
60000), then assemble the report from the (external) LLM output `llm`.
`rawLen` is `len(raw)`, the uploaded byte count. -/
def analyze (maxChars : Nat) (doc : RawDoc) (llm : LLMOut) (rawLen : Nat) :
    Except String AnalysisReport :=
  match extractDoc doc with
  | none => Except.error "Unsupported file. Upload PDF/DOCX/TXT."
  | some (text0, page_offsets, pages, ftype) =>
    let text1 := pyStrip text0
    if text1 = "" then Except.error "Could not extract any text from the document."
    else
      let text := if maxChars < text1.length then strTake text1 maxChars else text1
      Except.ok
        { summary := llm.summary
          obligations := llm.obligations
          risks := llm.risks
          clauses := llm.clauses
          riskLevel := classify_overall_risk llm.risks
          tags := (dedupFirst llm.tags).take 6
          size := sizeKB rawLen
          type := ftype
          pages := pages
          analyzedText := text
          pageOffsets := page_offsets
          highlights := build_highlights text llm.obligations llm.risks llm.clauses }

-- ---------- COMPARE ENDPOINT ----------

/-- The `compare` endpoint after both uploads have been decoded to text
(`extract(...)` in the source; decoder failures and unsupported suffixes
raise before this point): strip, reject only when both sides are empty,
truncate each side to `maxChars`, and diff. -/
def compareCore (maxChars : Nat) (titleA titleB aExtracted bExtracted : String) :
    Except String ComparisonReport :=
  let a_text := pyStrip aExtracted
  let b_text := pyStrip bExtracted
  if a_text = "" ∧ b_text = "" then
    Except.error "Could not extract text from either file."
  else
    let a_text := strTake a_text maxChars
    let b_text := strTake b_text maxChars
    Except.ok
      ⟨⟨if titleA = "" then "Version A" else titleA, a_text⟩,
       ⟨if titleB = "" then "Version B" else titleB, b_text⟩,
       diff_sections a_text b_text⟩

-- ---------- SPECIFICATION-SIDE DEFINITIONS AND PREDICATES ----------

/-- The `rangeA` interval of an opcode. -/
def opRangeA (o : Opcode) : Nat × Nat := (o.i1, o.i2)

/-- The `rangeB` interval of an opcode. -/
def opRangeB (o : Opcode) : Nat × Nat := (o.j1, o.j2)

/-- `ChainFrom s e segs`: the half-open segments in `segs` tile `[s, e)` in
order — each segment starts where the previous one ended, the first starts at
`s` and the last ends at `e` (an empty list requires `s = e`).  This is the
partition-in-increasing-order property the spec states for opcode ranges. -/
def ChainFrom : Nat → Nat → List (Nat × Nat) → Prop
  | s, e, [] => s = e
  | s, e, (x, y) :: rest => x = s ∧ x ≤ y ∧ ChainFrom y e rest

/-- Well-formed matching blocks seen from cursor `(ca, cb)`: in order, non
empty, pairwise non-overlapping, and bounded by `(ahi, bhi)`. -/
def BlocksLE (ahi bhi : Nat) : Nat → Nat → List (Nat × Nat × Nat) → Prop
  | _, _, [] => True
  | ca, cb, (i, j, k) :: rest =>
    ca ≤ i ∧ cb ≤ j ∧ 1 ≤ k ∧ i + k ≤ ahi ∧ j + k ≤ bhi ∧ BlocksLE ahi bhi (i + k) (j + k) rest

/-- Invariant of the `find_longest_match` best triple `(bi, bj, k)` for the
window `[alo, ahi) × [blo, bhi)`. -/
def FlmInv (alo ahi blo bhi : Nat) (best : Nat × Nat × Nat) : Prop :=
  alo ≤ best.1 ∧ blo ≤ best.2.1
    ∧ (0 < best.2.2 → best.1 + best.2.2 ≤ ahi ∧ best.2.1 + best.2.2 ≤ bhi)
    ∧ (best.2.2 = 0 → best.1 = alo ∧ best.2.1 = blo)

/-- Modelled from the spec's Change Synthesizer contract: the `removed`
record for one index of a `delete` opcode — "description = section text
truncated to 180 characters with a trailing ellipsis marker if truncated". -/
def specRemoved (a_secs : List String) (idx : Nat) : Change :=
  ⟨ChangeType.removed, "Section " ++ toString (idx + 1),
    if 180 < (a_secs.getD idx "").length
      then strTake (a_secs.getD idx "") 180 ++ "..." else a_secs.getD idx "",
    removedImpact⟩

/-- Modelled from the spec's Change Synthesizer contract: the `added` record
for one index of an `insert` opcode, symmetric over `B`. -/
def specAdded (b_secs : List String) (idx : Nat) : Change :=
  ⟨ChangeType.added, "Section " ++ toString (idx + 1),
    if 180 < (b_secs.getD idx "").length
      then strTake (b_secs.getD idx "") 180 ++ "..." else b_secs.getD idx "",
    addedImpact⟩

/-- Modelled from the spec's Change Synthesizer contract: per opcode, emit
nothing for `equal`, one `removed` per index of a `delete` opcode's `rangeA`,
one `added` per index of an `insert` opcode's `rangeB`, and exactly one
`modified` for a `replace` opcode, labelled "Sections {i1+1}-{i2}", whose
description joins each side's texts space-separated and truncated to 200
characters into a single changed-from/to string. -/
def specChangesForOpcode (a_secs b_secs : List String) (op : Opcode) : List Change :=
  match op.tag with
  | Tag.equal => []
  | Tag.delete => (List.range' op.i1 (op.i2 - op.i1)).map (specRemoved a_secs)
  | Tag.insert => (List.range' op.j1 (op.j2 - op.j1)).map (specAdded b_secs)
  | Tag.replace =>
    [⟨ChangeType.modified, "Sections " ++ toString (op.i1 + 1) ++ "-" ++ toString op.i2,
      "Changed from: “"
        ++ strTake (String.intercalate " " (listSlice a_secs op.i1 op.i2)) 200
        ++ "” → “"
        ++ strTake (String.intercalate " " (listSlice b_secs op.j1 op.j2)) 200 ++ "”.",
      modifiedImpact⟩]

/-- An LLM output with no findings, used to instantiate concrete runs. -/
def llmEmpty : LLMOut := ⟨"", [], [], [], []⟩

/-- The three range/length/substring facts claimed for every emitted
`Highlight` over the analyzed `text`. -/
def HighlightOK (text : String) (h : Highlight) : Prop :=
  h.text.length = h.rangeEnd - h.rangeStart ∧ h.text.length ≤ 160 ∧
    lowerStr (substr text h.rangeStart h.rangeEnd) = lowerStr h.text

-- ---------- HELPER LEMMAS ----------

theorem mk_toList (s : String) : String.mk s.toList = s := rfl

theorem length_strTake (s : String) (n : Nat) : (strTake s n).length = min n s.length := by
  show (s.toList.take n).length = min n s.toList.length
  exact List.length_take n s.toList

theorem strTake_of_le {s : String} {n : Nat} (h : s.length ≤ n) : strTake s n = s := by
  show String.mk (s.data.take n) = s
  rw [List.take_of_length_le h]

theorem strTake_empty (n : Nat) : strTake "" n = "" := by
  simp [strTake]

theorem lowerStr_empty : lowerStr "" = "" := rfl

theorem truncDesc_eq (s : String) :
    truncDesc s = if 180 < s.length then strTake s 180 ++ "..." else s := by
  by_cases h : 180 < s.length
  · simp [truncDesc, h]
  · simp [truncDesc, h, String.append_empty, strTake_of_le (Nat.le_of_not_lt h)]

theorem mkRemoved_eq_spec (a_secs : List String) : mkRemoved a_secs = specRemoved a_secs := by
  funext idx
  simp [mkRemoved, specRemoved, truncDesc_eq]

theorem mkAdded_eq_spec (b_secs : List String) : mkAdded b_secs = specAdded b_secs := by
  funext idx
  simp [mkAdded, specAdded, truncDesc_eq]

theorem changesForOpcode_eq_spec (a_secs b_secs : List String) :
    changesForOpcode a_secs b_secs = specChangesForOpcode a_secs b_secs := by
  funext op
  cases htag : op.tag <;>
    simp [changesForOpcode, specChangesForOpcode, htag, mkRemoved_eq_spec, mkAdded_eq_spec,
      mkModified]

theorem foldl_append_eq_flatten {α β : Type} (f : β → List α) :
    ∀ (l : List β) (init : List α),
      l.foldl (fun acc x => acc ++ f x) init = init ++ (l.map f).flatten := by
  intro l
  induction l with
  | nil => intro init; simp
  | cons x xs ih => intro init; simp [List.foldl_cons, ih (init ++ f x)]

theorem synthesizeChanges_eq_flatten (a_secs b_secs : List String) (ops : List Opcode) :
    synthesizeChanges a_secs b_secs ops = (ops.map (changesForOpcode a_secs b_secs)).flatten := by
  simpa using foldl_append_eq_flatten (changesForOpcode a_secs b_secs) ops []

theorem foldl_mem_closure {α β : Type} (g : List α → β → List α) (Q : α → Prop)
    (hg : ∀ acc x a, a ∈ g acc x → a ∈ acc ∨ Q a) :
    ∀ (l : List β) (init : List α) (a : α), a ∈ l.foldl g init → a ∈ init ∨ Q a := by
  intro l
  induction l with
  | nil => intro init a ha; exact Or.inl ha
  | cons x xs ih =>
    intro init a ha
    rcases ih (g init x) a ha with h | h
    · exact hg init x a h
    · exact Or.inr h

theorem strFind_spec {s pat : String} {i : Nat} (h : strFind s pat = some i) :
    (s.toList.drop i).take pat.toList.length = pat.toList := by
  have := List.find?_some h
  exact of_decide_eq_true this

theorem strFind_empty_pat (s : String) : strFind s "" = some 0 := by
  rw [strFind, List.range_succ_eq_map, List.find?_cons_of_pos]
  simp [occursAt]

theorem addHighlight_mem {text : String} {hl : List Highlight} {kind snippet : String}
    {clause : Option String} {h : Highlight}
    (hmem : h ∈ addHighlight text hl kind snippet clause) : h ∈ hl ∨ HighlightOK text h := by
  by_cases hempty : snippet = ""
  · rw [addHighlight, if_pos hempty] at hmem
    exact Or.inl hmem
  · rcases hfind : strFind (lowerStr text) (lowerStr (strTake (pyStrip snippet) 160)) with _ | i
    · simp only [addHighlight, if_neg hempty, hfind] at hmem
      exact Or.inl hmem
    · simp only [addHighlight, if_neg hempty, hfind] at hmem
      rcases List.mem_append.mp hmem with hin | hnew
      · exact Or.inl hin
      · right
        have hq : h = ⟨kind, clause, strTake (pyStrip snippet) 160, i,
            i + (strTake (pyStrip snippet) 160).length⟩ := by simpa using hnew
        subst hq
        set q := strTake (pyStrip snippet) 160 with hqdef
        refine ⟨by simp [Nat.add_sub_cancel_left], ?_, ?_⟩
        · show q.length ≤ 160
          rw [hqdef, length_strTake]
          exact min_le_left _ _
        · show lowerStr (substr text i (i + q.length)) = lowerStr q
          have hspec := strFind_spec hfind
          have hlen : (lowerStr q).toList.length = q.toList.length := by
            simp [lowerStr]
          rw [hlen] at hspec
          show String.mk (((text.toList.drop i).take (i + q.length - i)).map Char.toLower)
            = String.mk (q.toList.map Char.toLower)
          rw [Nat.add_sub_cancel_left]
          have : ((text.toList.map Char.toLower).drop i).take q.toList.length
              = q.toList.map Char.toLower := hspec
          rw [← List.map_drop, ← List.map_take] at this
          exact congrArg String.mk this

theorem build_highlights_mem {text : String} {obligations : List Obligation}
    {risks : List Risk} {clauses : List Clause} {h : Highlight}
    (hmem : h ∈ build_highlights text obligations risks clauses) : HighlightOK text h := by
  rw [build_highlights] at hmem
  have step3 := foldl_mem_closure _ (HighlightOK text)
    (fun acc c a ha => addHighlight_mem ha) clauses _ h hmem
  rcases step3 with h3 | hok
  · have step2 := foldl_mem_closure _ (HighlightOK text)
      (fun acc r a ha => addHighlight_mem ha) risks _ h h3
    rcases step2 with h2 | hok
    · have step1 := foldl_mem_closure _ (HighlightOK text)
        (fun acc o a ha => addHighlight_mem ha) obligations _ h h2
      rcases step1 with h1 | hok
      · exact absurd h1 (List.not_mem_nil h)
      · exact hok
    · exact hok
  · exact hok

-- ---------- ALIGNER LEMMAS ----------

theorem runLen_le (a b : List String) (alo blo : Nat) :
    ∀ i j, alo ≤ i → blo ≤ j →
      alo + runLen a b alo blo i j ≤ i + 1 ∧ blo + runLen a b alo blo i j ≤ j + 1 := by
  intro i
  induction i with
  | zero =>
    intro j hi hj
    simp only [runLen]
    split <;> omega
  | succ i ih =>
    intro j hi hj
    match j with
    | 0 =>
      simp only [runLen]
      split <;> omega
    | j' + 1 =>
      simp only [runLen]
      split
      · split
        · next hcond =>
          have := ih j' hcond.1 hcond.2
          omega
        · omega
      · omega

theorem foldl_preserve {α β : Type} (P : α → Prop) (f : α → β → α) :
    ∀ (l : List β) (init : α), P init → (∀ acc x, x ∈ l → P acc → P (f acc x)) →
      P (l.foldl f init) := by
  intro l
  induction l with
  | nil => intro init h _; exact h
  | cons x xs ih =>
    intro init h hstep
    exact ih (f init x) (hstep init x (List.mem_cons_self x xs) h)
      (fun acc y hy => hstep acc y (List.mem_cons_of_mem x hy))

theorem flmUpdate_inv {a b : List String} {alo ahi blo bhi i j : Nat}
    (hi : alo ≤ i) (hi2 : i < ahi) (hj : blo ≤ j) (hj2 : j < bhi)
    {best : Nat × Nat × Nat} (hb : FlmInv alo ahi blo bhi best) :
    FlmInv alo ahi blo bhi (flmUpdate a b alo blo i best j) := by
  rw [flmUpdate]
  split
  · next hlt =>
    have hr := runLen_le a b alo blo i j hi hj
    unfold FlmInv
    dsimp only
    refine ⟨by omega, by omega, fun _ => ⟨by omega, by omega⟩, fun h0 => absurd h0 (by omega)⟩
  · exact hb

theorem flmRow_inv {a b : List String} {alo ahi blo bhi i : Nat}
    (hi : alo ≤ i) (hi2 : i < ahi)
    {best : Nat × Nat × Nat} (hb : FlmInv alo ahi blo bhi best) :
    FlmInv alo ahi blo bhi (flmRow a b alo blo bhi best i) := by
  rw [flmRow]
  refine foldl_preserve _ _ _ _ hb (fun acc j hj hacc => ?_)
  have hjr := List.mem_range'.mp hj
  exact flmUpdate_inv hi hi2 (by omega) (by omega) hacc

theorem flmBest_inv (a b : List String) (alo ahi blo bhi : Nat) :
    FlmInv alo ahi blo bhi (flmBest a b alo ahi blo bhi) := by
  rw [flmBest]
  refine foldl_preserve _ _ _ _ ?_ (fun acc i hi hacc => ?_)
  · exact ⟨Nat.le_refl _, Nat.le_refl _, fun h => absurd h (by simp), fun _ => ⟨rfl, rfl⟩⟩
  · have hir := List.mem_range'.mp hi
    exact flmRow_inv (by omega) (by omega) hacc

theorem extendLeft_inv {a b : List String} {alo ahi blo bhi : Nat} :
    ∀ bi bj k, alo ≤ bi → blo ≤ bj →
      (0 < k → bi + k ≤ ahi ∧ bj + k ≤ bhi) → (k = 0 → bi = alo ∧ bj = blo) →
      FlmInv alo ahi blo bhi (extendLeft a b alo blo bi bj k) := by
  intro bi
  induction bi with
  | zero =>
    intro bj k h1 h2 h3 h4
    exact ⟨h1, h2, h3, fun h0 => h4 h0⟩
  | succ bi ih =>
    intro bj k h1 h2 h3 h4
    rw [extendLeft]
    split
    · next hg =>
      have hk : 0 < k := by
        rcases Nat.eq_zero_or_pos k with h0 | h0
        · have := h4 h0
          omega
        · exact h0
      have hb := h3 hk
      exact ih (bj - 1) (k + 1) hg.1 (by omega) (fun _ => by omega)
        (fun h0 => absurd h0 (by omega))
    · exact ⟨h1, h2, h3, fun h0 => h4 h0⟩

theorem extendLeft_k_le (a b : List String) (alo blo : Nat) :
    ∀ bi bj k, k ≤ (extendLeft a b alo blo bi bj k).2.2 := by
  intro bi
  induction bi with
  | zero => intro bj k; exact Nat.le_refl _
  | succ bi ih =>
    intro bj k
    rw [extendLeft]
    split
    · exact Nat.le_trans (Nat.le_succ k) (ih (bj - 1) (k + 1))
    · exact Nat.le_refl _

theorem extendRight_spec (a b : List String) (ahi bhi bi bj : Nat) :
    ∀ fuel k, (0 < k → bi + k ≤ ahi ∧ bj + k ≤ bhi) →
      k ≤ extendRight a b ahi bhi bi bj fuel k
      ∧ (0 < extendRight a b ahi bhi bi bj fuel k →
          bi + extendRight a b ahi bhi bi bj fuel k ≤ ahi
          ∧ bj + extendRight a b ahi bhi bi bj fuel k ≤ bhi)
      ∧ (extendRight a b ahi bhi bi bj fuel k = 0 → k = 0) := by
  intro fuel
  induction fuel with
  | zero =>
    intro k hk
    exact ⟨Nat.le_refl _, hk, fun h => h⟩
  | succ fuel ih =>
    intro k hk
    rw [extendRight]
    split
    · next hg =>
      have := ih (k + 1) (fun _ => by omega)
      exact ⟨by omega, this.2.1, fun h0 => absurd h0 (by omega)⟩
    · exact ⟨Nat.le_refl _, hk, fun h => h⟩

theorem extendRight_stop {a b : List String} {ahi bhi bi bj k : Nat}
    (h : ¬(bi + k < ahi ∧ bj + k < bhi ∧ elemEq a b (bi + k) (bj + k))) :
    ∀ fuel, extendRight a b ahi bhi bi bj fuel k = k := by
  intro fuel
  cases fuel with
  | zero => rfl
  | succ fuel => rw [extendRight, if_neg h]

theorem flm_inv (a b : List String) (alo ahi blo bhi : Nat) :
    FlmInv alo ahi blo bhi (find_longest_match a b alo ahi blo bhi) := by
  rw [find_longest_match]
  have hbest := flmBest_inv a b alo ahi blo bhi
  have hL := @extendLeft_inv a b alo ahi blo bhi
    (flmBest a b alo ahi blo bhi).1 (flmBest a b alo ahi blo bhi).2.1
    (flmBest a b alo ahi blo bhi).2.2 hbest.1 hbest.2.1 hbest.2.2.1 hbest.2.2.2
  have hR := extendRight_spec a b ahi bhi
    (extendLeft a b alo blo (flmBest a b alo ahi blo bhi).1 (flmBest a b alo ahi blo bhi).2.1
      (flmBest a b alo ahi blo bhi).2.2).1
    (extendLeft a b alo blo (flmBest a b alo ahi blo bhi).1 (flmBest a b alo ahi blo bhi).2.1
      (flmBest a b alo ahi blo bhi).2.2).2.1
    ahi
    (extendLeft a b alo blo (flmBest a b alo ahi blo bhi).1 (flmBest a b alo ahi blo bhi).2.1
      (flmBest a b alo ahi blo bhi).2.2).2.2 hL.2.2.1
  exact ⟨hL.1, hL.2.1, hR.2.1, fun h0 => hL.2.2.2 (hR.2.2 h0)⟩

theorem BlocksLE_append {ahi bhi m n : Nat} :
    ∀ (xs ys : List (Nat × Nat × Nat)) (ca cb : Nat),
      BlocksLE m n ca cb xs → BlocksLE ahi bhi m n ys →
      m ≤ ahi → n ≤ bhi → ca ≤ m → cb ≤ n →
      BlocksLE ahi bhi ca cb (xs ++ ys) := by
  intro xs
  induction xs with
  | nil =>
    intro ys ca cb _ hys hm hn hca hcb
    rw [List.nil_append]
    -- weaken the cursor of ys from (m, n) to (ca, cb)
    match ys with
    | [] => trivial
    | (i, j, k) :: rest =>
      obtain ⟨h1, h2, h3, h4, h5, h6⟩ := hys
      exact ⟨by omega, by omega, h3, h4, h5, h6⟩
  | cons blk xs ih =>
    intro ys ca cb hxs hys hm hn hca hcb
    obtain ⟨i0, j0, k0⟩ := blk
    obtain ⟨h1, h2, h3, h4, h5, h6⟩ := hxs
    exact ⟨h1, h2, h3, by omega, by omega,
      ih ys (i0 + k0) (j0 + k0) h6 hys hm hn h4 h5⟩

theorem mbRec_wf (a b : List String) :
    ∀ fuel alo ahi blo bhi, BlocksLE ahi bhi alo blo (mbRec a b fuel alo ahi blo bhi) := by
  intro fuel
  induction fuel with
  | zero => intro alo ahi blo bhi; trivial
  | succ fuel ih =>
    intro alo ahi blo bhi
    have hinv := flm_inv a b alo ahi blo bhi
    rcases hm : find_longest_match a b alo ahi blo bhi with ⟨i, j, k⟩
    rw [hm] at hinv
    obtain ⟨hi, hj, hbd, _⟩ := hinv
    dsimp only at hi hj hbd
    simp only [mbRec, hm]
    split
    · trivial
    · next hk =>
      have hik : i + k ≤ ahi := (hbd (by omega)).1
      have hjk : j + k ≤ bhi := (hbd (by omega)).2
      have hleft : BlocksLE i j alo blo
          (if alo < i ∧ blo < j then mbRec a b fuel alo i blo j else []) := by
        split
        · exact ih alo i blo j
        · trivial
      have hright : BlocksLE ahi bhi (i + k) (j + k)
          (if i + k < ahi ∧ j + k < bhi then mbRec a b fuel (i + k) ahi (j + k) bhi else []) := by
        split
        · exact ih (i + k) ahi (j + k) bhi
        · trivial
      exact BlocksLE_append _ _ alo blo hleft
        ⟨Nat.le_refl _, Nat.le_refl _, by omega, hik, hjk, hright⟩
        (by omega) (by omega) hi hj

theorem mergeAdjacent_wf {la lb : Nat} :
    ∀ (bs : List (Nat × Nat × Nat)) (i1 j1 k1 ca cb : Nat),
      BlocksLE la lb (i1 + k1) (j1 + k1) bs → ca ≤ i1 → cb ≤ j1 →
      i1 + k1 ≤ la → j1 + k1 ≤ lb →
      BlocksLE la lb ca cb (mergeAdjacent (i1, j1, k1) bs) := by
  intro bs
  induction bs with
  | nil =>
    intro i1 j1 k1 ca cb _ hca hcb hla hlb
    rw [mergeAdjacent]
    split
    · next hk => exact ⟨hca, hcb, by omega, hla, hlb, trivial⟩
    · trivial
  | cons blk rest ih =>
    intro i1 j1 k1 ca cb hbs hca hcb hla hlb
    obtain ⟨i2, j2, k2⟩ := blk
    obtain ⟨h1, h2, h3, h4, h5, h6⟩ := hbs
    rw [mergeAdjacent]
    split
    · next heq =>
      refine ih i1 j1 (k1 + k2) ca cb ?_ hca hcb (by omega) (by omega)
      have hi : i1 + (k1 + k2) = i2 + k2 := by omega
      have hj : j1 + (k1 + k2) = j2 + k2 := by omega
      rw [hi, hj]
      exact h6
    · next hne =>
      split
      · next hk =>
        refine ⟨hca, hcb, by omega, hla, hlb, ?_⟩
        exact ih i2 j2 k2 (i1 + k1) (j1 + k1) h6 h1 h2 h4 h5
      · next hk =>
        have hk0 : k1 = 0 := by omega
        exact ih i2 j2 k2 ca cb h6 (by omega) (by omega) h4 h5

theorem opcodesLoop_chain (la lb : Nat) :
    ∀ (bs : List (Nat × Nat × Nat)) (i j : Nat),
      BlocksLE la lb i j bs → i ≤ la → j ≤ lb →
      ChainFrom i la ((opcodesLoop i j (bs ++ [(la, lb, 0)])).map opRangeA)
      ∧ ChainFrom j lb ((opcodesLoop i j (bs ++ [(la, lb, 0)])).map opRangeB) := by
  intro bs
  induction bs with
  | nil =>
    intro i j _ hi hj
    rw [List.nil_append, opcodesLoop, opcodesLoop]
    by_cases hia : i < la <;> by_cases hjb : j < lb <;>
      simp [hia, hjb, ChainFrom, opRangeA, opRangeB] <;> omega
  | cons blk rest ih =>
    intro i j hbs hi hj
    obtain ⟨ai, bj, k⟩ := blk
    obtain ⟨h1, h2, h3, h4, h5, h6⟩ := hbs
    have hrec := ih (ai + k) (bj + k) h6 (by omega) (by omega)
    rw [List.cons_append, opcodesLoop]
    by_cases hia : i < ai <;> by_cases hjb : j < bj <;>
      simp only [hia, hjb, and_true, and_false, true_and, false_and, if_true, if_false,
        if_pos, if_neg, not_false_eq_true, not_true_eq_false, ite_true, ite_false,
        decide_True, decide_False] <;>
      simp [show k ≠ 0 by omega, ChainFrom, opRangeA, opRangeB, hrec.1, hrec.2] <;>
      omega

-- ---------- CLAIM THEOREMS ----------

/-- C1 (code bug): `read_pdf_and_offsets` records offsets that ignore the
`"\n"` separators inserted by `"\n".join`, contradicting both the claim and
its own docstring ("cumulative char index where page i starts in full_text"):
for pages `["ab", "cd"]` it returns offsets `[0, 2]`, but page 1's text
`"cd"` begins at index 3 of `"ab\ncd"`, not at index 2. -/
theorem pdf_offsets_code_bug :
    read_pdf_and_offsets ["ab", "cd"] = ("ab\ncd", [0, 2], 2)
    ∧ substr "ab\ncd" 3 5 = "cd"
    ∧ substr "ab\ncd" 2 4 ≠ "cd" := by
  refine ⟨by decide, by decide, by decide⟩

/-- C2 (counterexample): analyzing a txt document yields `pageOffsets = []`,
not the single-entry `[0]` the claim states. -/
theorem analyze_txt_offsets_cex :
    (analyze 100 (RawDoc.txtBytes "hi") llmEmpty 10).map AnalysisReport.pageOffsets
      = Except.ok []
    ∧ ([] : List Nat) ≠ [0] := by
  refine ⟨rfl, by decide⟩

/-- C2 (amended): for every successfully analyzed docx or txt document the
report has `pageOffsets = []` (the initial empty list is never overwritten
for non-paginated formats) and `pages = 1`. -/
theorem analyze_nonpaginated_offsets (maxChars : Nat) (llm : LLMOut) (rawLen : Nat) :
    (∀ s r, analyze maxChars (RawDoc.txtBytes s) llm rawLen = Except.ok r →
      r.pageOffsets = [] ∧ r.pages = 1) ∧
    (∀ paras r, analyze maxChars (RawDoc.docxParas paras) llm rawLen = Except.ok r →
      r.pageOffsets = [] ∧ r.pages = 1) := by
  constructor <;>
  · intro s r h
    simp only [analyze, extractDoc] at h
    split at h
    · simp at h
    · injection h with h'
      subst h'
      exact ⟨rfl, rfl⟩

/-- C2 (witness): a concrete successful txt analysis with the amended
conclusion. -/
theorem analyze_nonpaginated_offsets_witness :
    (analyze 100 (RawDoc.txtBytes "hi") llmEmpty 10).map
        (fun r => (r.pageOffsets, r.pages)) = Except.ok ([], 1) := by
  have h : analyze 100 (RawDoc.txtBytes "hi") llmEmpty 10 = Except.ok
      ⟨"", [], [], [], Severity.low, [], "0 KB", FileType.txt, 1, "hi", [], []⟩ := rfl
  have hc := (analyze_nonpaginated_offsets 100 llmEmpty 10).1 "hi" _ h
  rw [h]
  simp [Except.map, hc.1, hc.2]

/-- C3 (counterexample): an obligation whose text is whitespace-only (empty
after stripping) is not skipped: its truncated snippet is the empty string,
which is always found at index 0, so a `Highlight` with empty text and range
`[0, 0)` is emitted. -/
theorem whitespace_snippet_cex :
    pyStrip " " = ""
    ∧ build_highlights "hello" [⟨" ", "cl"⟩] [] []
        = [⟨"obligation", some "cl", "", 0, 0⟩] := by
  refine ⟨by decide, by decide⟩

/-- C3 (amended): a candidate is skipped (no `Highlight` appended) when its
raw text field is the empty string, or when its stripped 160-char-truncated
snippet is not found case-insensitively; but a candidate that is non-empty
yet whitespace-only is NOT skipped — the empty snippet is found at index 0
and a `Highlight` with empty text and range `[0, 0)` is appended. -/
theorem snippet_skip_cases (text : String) (hl : List Highlight) (kind snippet : String)
    (clause : Option String) :
    (snippet = "" → addHighlight text hl kind snippet clause = hl)
    ∧ (strFind (lowerStr text) (lowerStr (strTake (pyStrip snippet) 160)) = none →
        addHighlight text hl kind snippet clause = hl)
    ∧ (snippet ≠ "" → pyStrip snippet = "" →
        addHighlight text hl kind snippet clause = hl ++ [⟨kind, clause, "", 0, 0⟩]) := by
  refine ⟨fun h => by rw [addHighlight, if_pos h], fun h => ?_, fun h h' => ?_⟩
  · by_cases hempty : snippet = ""
    · rw [addHighlight, if_pos hempty]
    · simp only [addHighlight, if_neg hempty, h]
  · have hq : strTake (pyStrip snippet) 160 = "" := by rw [h', strTake_empty]
    simp only [addHighlight, if_neg h, hq, lowerStr_empty, strFind_empty_pat]
    simp

/-- C3 (witness): the amended behavior at a concrete whitespace-only
candidate. -/
theorem snippet_skip_cases_witness :
    addHighlight "ab" [] "obligation" " " none = [⟨"obligation", none, "", 0, 0⟩] := by
  have h := (snippet_skip_cases "ab" [] "obligation" " " none).2.2 (by decide) (by decide)
  simpa using h

/-- C7: the synthesizer emits, in opcode order, exactly the records the spec
describes: nothing for `equal`; one `removed` per index of a `delete`
opcode's `rangeA` with the 180-char/ellipsis description; one `added` per
index of an `insert` opcode's `rangeB`, symmetric over B; one `modified` per
`replace` opcode labelled "Sections {i1+1}-{i2}" joining each side
space-separated and truncated to 200 characters. -/
theorem synthesizer_per_opcode (a_secs b_secs : List String) (ops : List Opcode) :
    synthesizeChanges a_secs b_secs ops
      = (ops.map (specChangesForOpcode a_secs b_secs)).flatten := by
  rw [synthesizeChanges_eq_flatten, changesForOpcode_eq_spec]

/-- C8: the comparison pipeline caps the change list at 100 entries, keeping
exactly the first 100 synthesized records in discovery order. -/
theorem change_list_cap (a b : String) :
    (diff_sections a b).length ≤ 100
    ∧ diff_sections a b = (synthesizeChanges (split_sections a) (split_sections b)
        (get_opcodes (split_sections a) (split_sections b))).take 100 := by
  refine ⟨?_, rfl⟩
  exact List.length_take_le 100 _

/-- C6: every emitted Highlight has `text` of length `rangeEnd - rangeStart`,
at most 160 characters, and the substring of the analyzed text over
`[rangeStart, rangeEnd)` equals `text` under case-insensitive comparison. -/
theorem highlight_ranges_ok (text : String) (obligations : List Obligation)
    (risks : List Risk) (clauses : List Clause) (h : Highlight)
    (hmem : h ∈ build_highlights text obligations risks clauses) :
    h.text.length = h.rangeEnd - h.rangeStart ∧ h.text.length ≤ 160
    ∧ lowerStr (substr text h.rangeStart h.rangeEnd) = lowerStr h.text :=
  build_highlights_mem hmem

/-- C6 (witness): the concrete obligation snippet "Shall Pay Rent Monthly"
located inside "The tenant shall pay rent monthly.". -/
theorem highlight_ranges_ok_witness :
    (⟨"obligation", some "c", "Shall Pay Rent Monthly", 11, 33⟩ : Highlight)
      ∈ build_highlights "The tenant shall pay rent monthly."
        [⟨"Shall Pay Rent Monthly", "c"⟩] [] []
    ∧ lowerStr (substr "The tenant shall pay rent monthly." 11 33)
        = lowerStr "Shall Pay Rent Monthly" := by
  have hmem : (⟨"obligation", some "c", "Shall Pay Rent Monthly", 11, 33⟩ : Highlight)
      ∈ build_highlights "The tenant shall pay rent monthly."
        [⟨"Shall Pay Rent Monthly", "c"⟩] [] [] := by decide
  exact ⟨hmem, (highlight_ranges_ok _ _ _ _ _ hmem).2.2⟩

/-- C9: when the stripped extracted text exceeds `maxChars`, the report's
`analyzedText` is the prefix of the stripped text of exactly `maxChars`
characters, and `pageOffsets` are the offsets computed at extraction time,
unchanged by the truncation. -/
theorem truncation_preserves_offsets (maxChars : Nat) (doc : RawDoc) (llm : LLMOut)
    (rawLen : Nat) (text0 : String) (offs : List Nat) (pages : Nat) (ftype : FileType)
    (hx : extractDoc doc = some (text0, offs, pages, ftype))
    (hlen : maxChars < (pyStrip text0).length)
    (r : AnalysisReport) (hr : analyze maxChars doc llm rawLen = Except.ok r) :
    r.analyzedText = strTake (pyStrip text0) maxChars
    ∧ r.analyzedText.length = maxChars
    ∧ r.pageOffsets = offs := by
  simp only [analyze, hx] at hr
  split at hr
  · simp at hr
  · injection hr with h'
    subst h'
    refine ⟨rfl, ?_, rfl⟩
    show (strTake (pyStrip text0) maxChars).length = maxChars
    rw [length_strTake]
    omega

/-- C9 (witness): a two-page PDF "abc"/"de" analyzed with `maxChars = 3`:
the text is cut to "abc" while the offsets stay `[0, 3]`. -/
theorem truncation_preserves_offsets_witness :
    extractDoc (RawDoc.pdfPages ["abc", "de"]) = some ("abc\nde", [0, 3], 2, FileType.pdf)
    ∧ 3 < (pyStrip "abc\nde").length
    ∧ (analyze 3 (RawDoc.pdfPages ["abc", "de"]) llmEmpty 5).map
        (fun r => (r.analyzedText, r.pageOffsets))
      = Except.ok (strTake (pyStrip "abc\nde") 3, [0, 3]) := by
  have hr : analyze 3 (RawDoc.pdfPages ["abc", "de"]) llmEmpty 5 = Except.ok
      ⟨"", [], [], [], Severity.low, [], "0 KB", FileType.pdf, 2, "abc", [0, 3], []⟩ := rfl
  have hc := truncation_preserves_offsets 3 (RawDoc.pdfPages ["abc", "de"]) llmEmpty 5
    "abc\nde" [0, 3] 2 FileType.pdf rfl (by decide) _ hr
  refine ⟨rfl, by decide, ?_⟩
  rw [hr, ← hc.1]
  rfl

/-- C4 (counterexample): the opcode list is not in strictly increasing order
of rangeA start — for `A = ["x"]`, `B = ["y", "x"]` the aligner yields an
`insert` with empty rangeA `[0, 0)` followed by an `equal` whose rangeA also
starts at 0. -/
theorem opcodes_not_strict_cex :
    get_opcodes ["x"] ["y", "x"]
      = [⟨Tag.insert, 0, 0, 0, 1⟩, ⟨Tag.equal, 0, 1, 1, 2⟩]
    ∧ (get_opcodes ["x"] ["y", "x"]).map Opcode.i1 = [0, 0]
    ∧ ¬(0 : Nat) < 0 := by
  refine ⟨by decide, by decide, by omega⟩

/-- C4 (amended): for any two section sequences the opcode list partitions
`[0, len A)` and `[0, len B)` exactly and in order — each opcode's rangeA
begins exactly where the previous one ended (starting at 0 and ending at
`len A`), and likewise for rangeB; the starts are therefore non-decreasing,
but not strictly increasing (an empty gap range repeats the previous
start). -/
theorem aligner_partition (A B : List String) :
    ChainFrom 0 A.length ((get_opcodes A B).map opRangeA)
    ∧ ChainFrom 0 B.length ((get_opcodes A B).map opRangeB) := by
  have h1 := mbRec_wf A B (A.length + B.length) 0 A.length 0 B.length
  have h2 := mergeAdjacent_wf (mbRec A B (A.length + B.length) 0 A.length 0 B.length)
    0 0 0 0 0 h1 (Nat.le_refl 0) (Nat.le_refl 0) (Nat.zero_le _) (Nat.zero_le _)
  exact opcodesLoop_chain A.length B.length _ 0 0 h2 (Nat.zero_le _) (Nat.zero_le _)

-- ---------- SELF-DIFF LEMMAS (C5) ----------

theorem foldl_nat_mono {α β : Type} (g : α → Nat) (f : α → β → α)
    (hmono : ∀ acc x, g acc ≤ g (f acc x)) :
    ∀ (l : List β) (init : α), g init ≤ g (l.foldl f init) := by
  intro l
  induction l with
  | nil => intro init; exact Nat.le_refl _
  | cons x xs ih => intro init; exact Nat.le_trans (hmono init x) (ih (f init x))

theorem foldl_nat_hit {α β : Type} (g : α → Nat) (f : α → β → α) (v : β → Nat)
    (hmono : ∀ acc x, g acc ≤ g (f acc x)) (hhit : ∀ acc x, v x ≤ g (f acc x)) :
    ∀ (l : List β) (init : α) (x : β), x ∈ l → v x ≤ g (l.foldl f init) := by
  intro l
  induction l with
  | nil => intro init x hx; cases hx
  | cons y ys ih =>
    intro init x hx
    rcases List.mem_cons.mp hx with rfl | hx'
    · exact Nat.le_trans (hhit init x) (foldl_nat_mono g f hmono ys (f init x))
    · exact ih (f init y) x hx'

theorem flmUpdate_k_mono (a b : List String) (alo blo i : Nat)
    (best : Nat × Nat × Nat) (j : Nat) :
    best.2.2 ≤ (flmUpdate a b alo blo i best j).2.2 := by
  rw [flmUpdate]
  split
  · next h => exact Nat.le_of_lt h
  · exact Nat.le_refl _

theorem flmUpdate_k_hit (a b : List String) (alo blo i : Nat)
    (best : Nat × Nat × Nat) (j : Nat) :
    runLen a b alo blo i j ≤ (flmUpdate a b alo blo i best j).2.2 := by
  rw [flmUpdate]
  split
  · exact Nat.le_refl _
  · next h => exact Nat.le_of_not_lt h

theorem flm_k_ge (a b : List String) (alo ahi blo bhi i j : Nat)
    (hi1 : alo ≤ i) (hi2 : i < ahi) (hj1 : blo ≤ j) (hj2 : j < bhi) :
    runLen a b alo blo i j ≤ (find_longest_match a b alo ahi blo bhi).2.2 := by
  have h1 : runLen a b alo blo i j ≤ (flmBest a b alo ahi blo bhi).2.2 := by
    rw [flmBest]
    refine foldl_nat_hit (fun (p : Nat × Nat × Nat) => p.2.2) _
      (fun i' => runLen a b alo blo i' j)
      (fun acc x => ?_) (fun acc i' => ?_) _ _ i
      (List.mem_range'.mpr ⟨i - alo, by omega, by omega⟩)
    · exact foldl_nat_mono (fun (p : Nat × Nat × Nat) => p.2.2) _
        (fun acc' j' => flmUpdate_k_mono a b alo blo x acc' j') _ acc
    · rw [flmRow]
      exact foldl_nat_hit (fun (p : Nat × Nat × Nat) => p.2.2) _
        (fun j' => runLen a b alo blo i' j')
        (fun acc' j' => flmUpdate_k_mono a b alo blo i' acc' j')
        (fun acc' j' => flmUpdate_k_hit a b alo blo i' acc' j') _ acc j
        (List.mem_range'.mpr ⟨j - blo, by omega, by omega⟩)
  have hbest := flmBest_inv a b alo ahi blo bhi
  have hL := @extendLeft_inv a b alo ahi blo bhi
    (flmBest a b alo ahi blo bhi).1 (flmBest a b alo ahi blo bhi).2.1
    (flmBest a b alo ahi blo bhi).2.2 hbest.1 hbest.2.1 hbest.2.2.1 hbest.2.2.2
  have h2 := extendLeft_k_le a b alo blo (flmBest a b alo ahi blo bhi).1
    (flmBest a b alo ahi blo bhi).2.1 (flmBest a b alo ahi blo bhi).2.2
  have h3 := (extendRight_spec a b ahi bhi
    (extendLeft a b alo blo (flmBest a b alo ahi blo bhi).1 (flmBest a b alo ahi blo bhi).2.1
      (flmBest a b alo ahi blo bhi).2.2).1
    (extendLeft a b alo blo (flmBest a b alo ahi blo bhi).1 (flmBest a b alo ahi blo bhi).2.1
      (flmBest a b alo ahi blo bhi).2.2).2.1
    ahi
    (extendLeft a b alo blo (flmBest a b alo ahi blo bhi).1 (flmBest a b alo ahi blo bhi).2.1
      (flmBest a b alo ahi blo bhi).2.2).2.2 hL.2.2.1).1
  rw [find_longest_match]
  dsimp only
  omega

theorem elemEq_self {a : List String} {i : Nat} (h : i < a.length) : elemEq a a i i = true := by
  rw [elemEq, List.get?_eq_get h]
  simp

theorem runLen_self (a : List String) : ∀ i, i < a.length → runLen a a 0 0 i i = i + 1 := by
  intro i
  induction i with
  | zero => intro h; simp [runLen, elemEq_self h]
  | succ i ih =>
    intro h
    have hi : i < a.length := by omega
    simp [runLen, elemEq_self h, ih hi]
    omega

theorem flm_self (a : List String) (h : 1 ≤ a.length) :
    find_longest_match a a 0 a.length 0 a.length = (0, 0, a.length) := by
  have hge' := flm_k_ge a a 0 a.length 0 a.length (a.length - 1) (a.length - 1)
    (Nat.zero_le _) (by omega) (Nat.zero_le _) (by omega)
  rw [runLen_self a (a.length - 1) (by omega)] at hge'
  have hinv := flm_inv a a 0 a.length 0 a.length
  rcases hres : find_longest_match a a 0 a.length 0 a.length with ⟨bi, bj, k⟩
  rw [hres] at hge' hinv
  obtain ⟨h1, h2, h3, _⟩ := hinv
  dsimp only at h1 h2 h3 hge'
  have hk : 0 < k := by omega
  obtain ⟨hb1, hb2⟩ := h3 hk
  simp only [Prod.mk.injEq]
  omega

theorem get_matching_blocks_self (a : List String) (h : 1 ≤ a.length) :
    get_matching_blocks a a = [(0, 0, a.length), (a.length, a.length, 0)] := by
  have hflm := flm_self a h
  rw [get_matching_blocks]
  rcases hsum : a.length + a.length with _ | f
  · omega
  · simp only [mbRec, hflm]
    rw [if_neg (by omega : ¬a.length = 0)]
    rw [if_neg (by simp : ¬((0 : Nat) < 0 ∧ (0 : Nat) < 0))]
    rw [if_neg (by omega : ¬(0 + a.length < a.length ∧ 0 + a.length < a.length))]
    simp only [List.nil_append]
    rw [mergeAdjacent, if_pos (by simp : 0 + 0 = 0 ∧ 0 + 0 = 0)]
    rw [mergeAdjacent, if_pos (by omega : 0 + a.length ≠ 0)]
    simp

theorem get_opcodes_self (a : List String) (h : 1 ≤ a.length) :
    get_opcodes a a = [⟨Tag.equal, 0, a.length, 0, a.length⟩] := by
  rw [get_opcodes, get_matching_blocks_self a h]
  rw [opcodesLoop]
  rw [if_neg (by simp : ¬((0 : Nat) < 0 ∧ (0 : Nat) < 0))]
  rw [if_neg (by simp : ¬(0 : Nat) < 0), if_neg (by simp : ¬(0 : Nat) < 0)]
  rw [if_pos (by omega : a.length ≠ 0)]
  rw [opcodesLoop]
  rw [if_neg (by omega : ¬(0 + a.length < a.length ∧ 0 + a.length < a.length))]
  rw [if_neg (by omega : ¬0 + a.length < a.length), if_neg (by omega : ¬0 + a.length < a.length)]
  rw [if_neg (by simp : ¬(0 : Nat) ≠ 0)]
  rw [opcodesLoop]
  simp

/-- C5: diffing any text against an identical copy of itself yields an empty
Change list — the aligner returns a single `equal` opcode (or none when the
text has no sections), and `equal` opcodes contribute no Change records. -/
theorem self_diff_empty (t : String) : diff_sections t t = [] := by
  rcases hs : split_sections t with _ | ⟨x, xs⟩
  · simp only [diff_sections, hs]
    rfl
  · simp only [diff_sections, hs]
    rw [get_opcodes_self (x :: xs) (by simp)]
    simp [synthesizeChanges, changesForOpcode]

-- ---------- EMPTY-SIDE DIFF LEMMAS (C10) ----------

theorem foldl_id {α β : Type} (f : α → β → α) (hf : ∀ acc x, f acc x = acc) :
    ∀ (l : List β) (init : α), l.foldl f init = init := by
  intro l
  induction l with
  | nil => intro init; rfl
  | cons x xs ih => intro init; rw [List.foldl_cons, hf init x, ih init]

theorem flm_empty_left (b : List String) (n : Nat) :
    find_longest_match [] b 0 0 0 n = (0, 0, 0) := rfl

theorem flm_empty_right (a : List String) (n : Nat) :
    find_longest_match a [] 0 n 0 0 = (0, 0, 0) := by
  have hb : flmBest a [] 0 n 0 0 = (0, 0, 0) := by
    rw [flmBest]
    exact foldl_id _ (fun acc i => rfl) _ _
  simp only [find_longest_match, hb, extendLeft]
  rw [extendRight_stop (fun hc => absurd hc.2.1 (by omega)) n]

theorem mbRec_k0 {a b : List String} {alo ahi blo bhi : Nat}
    (h : (find_longest_match a b alo ahi blo bhi).2.2 = 0) :
    ∀ fuel, mbRec a b fuel alo ahi blo bhi = [] := by
  intro fuel
  cases fuel with
  | zero => rfl
  | succ fuel =>
    rcases hm : find_longest_match a b alo ahi blo bhi with ⟨i, j, k⟩
    rw [hm] at h
    dsimp only at h
    simp [mbRec, hm, h]

theorem get_opcodes_empty_left (b : List String) :
    get_opcodes [] b
      = if b.length = 0 then [] else [⟨Tag.insert, 0, 0, 0, b.length⟩] := by
  rw [get_opcodes, get_matching_blocks]
  rw [mbRec_k0 (by simp only [List.length_nil]; rw [flm_empty_left]) _]
  rw [mergeAdjacent, if_neg (by simp : ¬(0 : Nat) ≠ 0)]
  simp only [List.nil_append, List.length_nil]
  by_cases hb : b.length = 0
  · rw [hb]
    simp [opcodesLoop]
  · rw [if_neg hb]
    have hpos : 0 < b.length := Nat.pos_of_ne_zero hb
    rw [opcodesLoop]
    rw [if_neg (by omega : ¬((0 : Nat) < 0 ∧ 0 < b.length))]
    rw [if_neg (by omega : ¬(0 : Nat) < 0), if_pos hpos]
    rw [if_neg (by simp : ¬(0 : Nat) ≠ 0)]
    rw [opcodesLoop]
    simp

theorem get_opcodes_empty_right (a : List String) :
    get_opcodes a []
      = if a.length = 0 then [] else [⟨Tag.delete, 0, a.length, 0, 0⟩] := by
  rw [get_opcodes, get_matching_blocks]
  rw [mbRec_k0 (by simp only [List.length_nil]; rw [flm_empty_right]) _]
  rw [mergeAdjacent, if_neg (by simp : ¬(0 : Nat) ≠ 0)]
  simp only [List.nil_append, List.length_nil]
  by_cases ha : a.length = 0
  · rw [ha]
    simp [opcodesLoop]
  · rw [if_neg ha]
    have hpos : 0 < a.length := Nat.pos_of_ne_zero ha
    rw [opcodesLoop]
    rw [if_neg (by omega : ¬(0 < a.length ∧ (0 : Nat) < 0)), if_pos hpos]
    rw [if_neg (by simp : ¬(0 : Nat) ≠ 0)]
    rw [opcodesLoop]
    simp

theorem split_sections_empty : split_sections "" = [] := rfl

theorem diff_sections_empty_left (b : String) :
    diff_sections "" b
      = ((List.range' 0 (split_sections b).length).map (mkAdded (split_sections b))).take 100 := by
  simp only [diff_sections, split_sections_empty]
  rw [get_opcodes_empty_left]
  by_cases hb : (split_sections b).length = 0
  · rw [if_pos hb, hb]
    simp [synthesizeChanges]
  · rw [if_neg hb]
    simp [synthesizeChanges, changesForOpcode]

theorem diff_sections_empty_right (a : String) :
    diff_sections a ""
      = ((List.range' 0 (split_sections a).length).map (mkRemoved (split_sections a))).take 100 := by
  simp only [diff_sections, split_sections_empty]
  rw [get_opcodes_empty_right]
  by_cases ha : (split_sections a).length = 0
  · rw [if_pos ha, ha]
    simp [synthesizeChanges]
  · rw [if_neg ha]
    simp [synthesizeChanges, changesForOpcode]

/-- C10: compare rejects exactly when both stripped texts are empty; when
exactly one side is empty, it succeeds, returns that side as an empty content
string, and produces one Change per section of the non-empty side (all
`added` when A is empty, all `removed` when B is empty, capped at 100). -/
theorem compare_empty_side (maxChars : Nat) (tA tB a b : String) :
    ((compareCore maxChars tA tB a b).isOk = true ↔ ¬(pyStrip a = "" ∧ pyStrip b = ""))
    ∧ (pyStrip a = "" → pyStrip b ≠ "" →
        ∀ r, compareCore maxChars tA tB a b = Except.ok r →
          r.versionA.content = ""
          ∧ r.changes = ((List.range' 0
                (split_sections (strTake (pyStrip b) maxChars)).length).map
              (mkAdded (split_sections (strTake (pyStrip b) maxChars)))).take 100
          ∧ ∀ c ∈ r.changes, c.type = ChangeType.added)
    ∧ (pyStrip b = "" → pyStrip a ≠ "" →
        ∀ r, compareCore maxChars tA tB a b = Except.ok r →
          r.versionB.content = ""
          ∧ r.changes = ((List.range' 0
                (split_sections (strTake (pyStrip a) maxChars)).length).map
              (mkRemoved (split_sections (strTake (pyStrip a) maxChars)))).take 100
          ∧ ∀ c ∈ r.changes, c.type = ChangeType.removed) := by
  refine ⟨?_, ?_, ?_⟩
  · rw [compareCore]
    split
    · next hcond => simp [Except.isOk, Except.toBool, hcond]
    · next hcond => simp [Except.isOk, Except.toBool, hcond]
  · intro ha hb r hr
    rw [compareCore, if_neg (fun hc => hb hc.2)] at hr
    injection hr with h'
    subst h'
    refine ⟨?_, ?_, ?_⟩
    · show strTake (pyStrip a) maxChars = ""
      rw [ha, strTake_empty]
    · show diff_sections (strTake (pyStrip a) maxChars) (strTake (pyStrip b) maxChars) = _
      rw [ha, strTake_empty, diff_sections_empty_left]
    · intro c hc
      have hc' : c ∈ diff_sections (strTake (pyStrip a) maxChars)
          (strTake (pyStrip b) maxChars) := hc
      rw [ha, strTake_empty, diff_sections_empty_left] at hc'
      obtain ⟨idx, _, rfl⟩ := List.mem_map.mp (List.mem_of_mem_take hc')
      rfl
  · intro hb ha r hr
    rw [compareCore, if_neg (fun hc => ha hc.1)] at hr
    injection hr with h'
    subst h'
    refine ⟨?_, ?_, ?_⟩
    · show strTake (pyStrip b) maxChars = ""
      rw [hb, strTake_empty]
    · show diff_sections (strTake (pyStrip a) maxChars) (strTake (pyStrip b) maxChars) = _
      rw [hb, strTake_empty, diff_sections_empty_right]
    · intro c hc
      have hc' : c ∈ diff_sections (strTake (pyStrip a) maxChars)
          (strTake (pyStrip b) maxChars) := hc
      rw [hb, strTake_empty, diff_sections_empty_right] at hc'
      obtain ⟨idx, _, rfl⟩ := List.mem_map.mp (List.mem_of_mem_take hc')
      rfl

/-- C10 (witness): comparing an empty extraction against "hello" succeeds
and yields a single `added` Change. -/
theorem compare_empty_side_witness :
    (compareCore 100 "a.txt" "b.txt" "" "hello").isOk = true
    ∧ (compareCore 100 "a.txt" "b.txt" "" "hello").map
        (fun r => (r.versionA.content, r.changes.map Change.type))
      = Except.ok ("", [ChangeType.added]) := by
  have hr : compareCore 100 "a.txt" "b.txt" "" "hello" = Except.ok
      ⟨⟨"a.txt", ""⟩, ⟨"b.txt", "hello"⟩,
        [⟨ChangeType.added, "Section 1", "hello", addedImpact⟩]⟩ := rfl
  have h := (compare_empty_side 100 "a.txt" "b.txt" "" "hello").2.1 rfl (by decide) _ hr
  constructor
  · rw [hr]
    rfl
  · rw [hr]
    show Except.ok ((⟨⟨"a.txt", ""⟩, ⟨"b.txt", "hello"⟩,
        [⟨ChangeType.added, "Section 1", "hello", addedImpact⟩]⟩ :
          ComparisonReport).versionA.content, [ChangeType.added])
      = Except.ok ("", [ChangeType.added])
    rw [h.1]

end Lexiclaire
